import Mathlib

/-!
Verification development for the ph-archive feed archiver (`src/main.py`).

The Python module is shallowly embedded: Python dicts become association
lists in which the binding appended last wins (matching dict update and
`{**a, **b}` merge semantics), the regex-driven template substitution
becomes a character-list scanner, and the effectful pipeline pieces
(HTTP fetching, the filesystem, XML well-formedness, the Atom-to-RSS
transform as seen by the runner) become explicit oracle parameters and
state threading.  Machine-independent data (strings, naturals, integers)
is used throughout; all definitions are executable.
-/

namespace PH

/-- Lookup in a Python-dict-like association list: the binding appended
last wins, matching `d[k] = v` assignment and `{**a, **b}` merges where
later bindings shadow earlier ones. -/
def dget {α : Type} : List (String × α) → String → Option α
  | [], _ => none
  | (k, v) :: rest, key =>
    match dget rest key with
    | some r => some r
    | none => if k == key then some v else none

/-! ## Template substitution (`substitute` in `src/main.py`)

The Python function performs `re.sub` with the pattern of an optional
dollar sign, an opening brace, one or more non-closing-brace characters
(the name), and a closing brace; a token whose name is found in the
variable mapping (augmented with the key "today") is replaced by the
value, anything else is left verbatim, and replaced text is not
re-scanned. -/

/-- Attempt to match the tail of a token at the characters following an
opening brace: the name is a maximal nonempty run of characters other
than the closing brace, which must be immediately followed by the
closing brace.  Returns the name and the characters after the token. -/
def tokenAt (cs : List Char) : Option (List Char × List Char) :=
  let tok := cs.takeWhile (fun c => c != '}')
  match cs.drop tok.length with
  | '}' :: rest => if tok.isEmpty then none else some (tok, rest)
  | _ => none

/-- Fuel-indexed scanner for the substitution regex.  The fuel only makes
the recursion structural; `substitute` supplies fuel equal to the input
length, which is sufficient because every recursive call consumes at
least one character. -/
def substAux (look : String → Option String) : Nat → List Char → List Char
  | _, [] => []
  | 0, cs => cs
  | fuel + 1, c :: rest =>
    if c = '$' then
      match rest with
      | '{' :: rest2 =>
        match tokenAt rest2 with
        | some (tok, rem) =>
          (match look ⟨tok⟩ with
           | some v => v.data
           | none => '$' :: '{' :: (tok ++ ['}'])) ++ substAux look fuel rem
        | none => c :: substAux look fuel rest
      | _ => c :: substAux look fuel rest
    else if c = '{' then
      match tokenAt rest with
      | some (tok, rem) =>
        (match look ⟨tok⟩ with
         | some v => v.data
         | none => '{' :: (tok ++ ['}'])) ++ substAux look fuel rem
      | none => c :: substAux look fuel rest
    else c :: substAux look fuel rest

/-- Model of `substitute(template, variables)`: the variable mapping is
copied and extended with the binding of "today" to the current UTC date
(passed explicitly here), then every token is replaced by the value of
its name when the name is bound, and left verbatim otherwise. -/
def substitute (template : String) (varMap : List (String × String))
    (today : String) : String :=
  ⟨substAux (fun k => dget (varMap ++ [("today", today)]) k)
    template.data.length template.data⟩

/-! ## Target expansion (`expand_targets` in `src/main.py`) -/

/-- A configuration value: either a scalar string or a list of strings
(an expansion axis). -/
inductive PVal where
  | s (v : String)
  | l (vs : List String)
deriving DecidableEq, Repr

/-- The non-list entries of a definitions dict (`fixed_defs`,
`fixed_target_vars`). -/
def fixedOf (d : List (String × PVal)) : List (String × String) :=
  d.filterMap (fun p =>
    match p.2 with
    | .s v => some (p.1, v)
    | .l _ => none)

/-- The list-valued entries of a definitions dict (`list_defs`,
`list_target_vars`). -/
def listOf (d : List (String × PVal)) : List (String × List String) :=
  d.filterMap (fun p =>
    match p.2 with
    | .l vs => some (p.1, vs)
    | .s _ => none)

/-- The singularization heuristic: a key ending in the letter s with
length greater than one maps to the key with its final character
stripped (`"langs"` to `"lang"`); anything else maps to itself. -/
def singular (k : String) : String :=
  if k.data.getLast? = some 's' ∧ k.length > 1 then ⟨k.data.dropLast⟩ else k

/-- Cartesian product of a list of axes in `itertools.product` order:
the first axis varies slowest, the last fastest. -/
def cartProd {α : Type} : List (List α) → List (List α)
  | [] => [[]]
  | xs :: rest => xs.flatMap (fun x => (cartProd rest).map (fun c => x :: c))

/-- Byte-wise (code-point) comparison of strings, the order used by
Python `sorted` on `str` keys. -/
def charsLe : List Char → List Char → Bool
  | [], _ => true
  | _ :: _, [] => false
  | a :: as, b :: bs => if a < b then true else if b < a then false else charsLe as bs

/-- String comparison on the underlying character lists. -/
def strLe (a b : String) : Bool := charsLe a.data b.data

/-- Insert a string into an already sorted list, keeping it sorted. -/
def insertSorted (x : String) : List String → List String
  | [] => [x]
  | y :: ys => if strLe x y then x :: y :: ys else y :: insertSorted x ys

/-- Insertion sort over strings: the model of `sorted(...)` on the
list-variable names. -/
def sortStrings : List String → List String
  | [] => []
  | x :: xs => insertSorted x (sortStrings xs)

/-- The combinations generated from the defs-level list variables: one
dict per element of the cartesian product over the sorted list-variable
names, with each key exposed under its singularized name.  A dict with
no list variables contributes exactly one empty combination. -/
def defsCombos (list_defs : List (String × List String)) :
    List (List (String × String)) :=
  if list_defs.isEmpty then [[]]
  else
    let keys := sortStrings (list_defs.map Prod.fst)
    let vals := keys.map (fun k => (dget list_defs k).getD [])
    (cartProd vals).map (fun combo => (keys.map singular).zip combo)

/-- The combinations generated from a target's own list variables: as at
the defs level but with no singularization of the exposed names. -/
def targetCombos (list_vars : List (String × List String)) :
    List (List (String × String)) :=
  if list_vars.isEmpty then [[]]
  else
    let keys := sortStrings (list_vars.map Prod.fst)
    let vals := keys.map (fun k => (dget list_vars k).getD [])
    (cartProd vals).map (fun combo => keys.zip combo)

/-- A target template: optional filepath and url templates (defaulting
to the empty string on substitution) and a target-scoped variable
dict. -/
structure Target where
  filepath : Option String
  url : Option String
  vars : List (String × PVal)
deriving DecidableEq, Repr

/-- An expanded worklist entry as built by `expand_targets`: a dict that
always carries the keys filepath and url, and carries lang only when the
extracted language value is truthy. -/
structure Entry where
  filepath : Option String
  url : Option String
  lang : Option String
deriving DecidableEq, Repr

/-- `defs.get('base', '')` as used for the one level of self-reference:
the base template string, empty when absent.  (A list-valued base would
make the Python program raise inside `re.sub`; no claim exercises that
configuration and it is mapped to the empty template here.) -/
def baseOf (defs : List (String × PVal)) : String :=
  match dget defs "base" with
  | some (.s b) => b
  | _ => ""

/-- The key under which the language value is looked up in the merged
variable scope: `list_var_template_names_map.get('langs', 'langs')`,
that is, the singular form "lang" exactly when "langs" is a defs-level
list axis, and the literal "langs" otherwise. -/
def langKey (defs : List (String × PVal)) : String :=
  if (listOf defs).any (fun p => p.1 == "langs") then singular "langs" else "langs"

/-- The fully merged variable scope for one emitted entry: the current
defs combination merged over the fixed defs, extended with the
substituted base, then the target's fixed variables, then the target
combination; later scopes shadow earlier ones. -/
def mkAllVars (defs : List (String × PVal)) (defs_combo : List (String × String))
    (t : Target) (tc : List (String × String)) (today : String) :
    List (String × String) :=
  let base_vars := fixedOf defs ++ defs_combo
  (base_vars ++ [("base", substitute (baseOf defs) base_vars today)]) ++
    fixedOf t.vars ++ tc

/-- One emitted entry: the filepath and url templates substituted in the
merged scope, and the lang field set from the language lookup when that
value is truthy (present and non-empty). -/
def mkEntry (defs : List (String × PVal)) (defs_combo : List (String × String))
    (t : Target) (tc : List (String × String)) (today : String) : Entry :=
  let all_vars := mkAllVars defs defs_combo t tc today
  ⟨some (substitute (t.filepath.getD "") all_vars today),
   some (substitute (t.url.getD "") all_vars today),
   match dget all_vars (langKey defs) with
   | some v => if v = "" then none else some v
   | none => none⟩

/-- `expand_targets` instrumented to also return the merged variable
scope of each emitted entry (the Python local `all_vars`). -/
def expandFull (defs : List (String × PVal)) (targets : List Target)
    (today : String) : List (Entry × List (String × String)) :=
  (defsCombos (listOf defs)).flatMap (fun defs_combo =>
    targets.flatMap (fun t =>
      (targetCombos (listOf t.vars)).map (fun tc =>
        (mkEntry defs defs_combo t tc today,
         mkAllVars defs defs_combo t tc today))))

/-- Model of `expand_targets(defs, targets)`: the ordered worklist of
expanded entries. -/
def expand_targets (defs : List (String × PVal)) (targets : List Target)
    (today : String) : List Entry :=
  (expandFull defs targets today).map Prod.fst

/-! ## Constants of the module -/

def CAPTURES_DIR : String := "rss"

def MAX_RETRIES : Nat := 3

def BACKOFF_FACTOR : Nat := 2

/-- The retryable HTTP status codes. -/
def RETRY_STATUSES : List Nat := [429, 500, 502, 503, 504]

/-! ## Bounded-retry fetcher (`fetch_url` in `src/main.py`) -/

/-- The outcome of one HTTP GET attempt: a response with a status code
and body text, or a raised `requests` transport exception. -/
inductive HttpOutcome where
  | response (status : Nat) (body : String)
  | exn
deriving DecidableEq, Repr

/-- The observable result of `fetch_url`: the returned body (none models
the Python `None`), the number of attempts actually made, and the list
of back-off sleeps performed, in seconds and in order. -/
structure FetchOut where
  result : Option String
  attempts : Nat
  sleeps : List Nat
deriving DecidableEq, Repr

/-- The retry loop of `fetch_url`, iterating over the remaining attempt
numbers.  Status 200 returns the body at once; a retryable status or a
transport exception sleeps `BACKOFF_FACTOR ^ attempt` seconds and moves
to the next attempt; any other status fails immediately. -/
def fetchAttempts (resp : Nat → HttpOutcome) : List Nat → FetchOut
  | [] => ⟨none, 0, []⟩
  | a :: rest =>
    match resp a with
    | .response status body =>
      if status = 200 then ⟨some body, 1, []⟩
      else if status ∈ RETRY_STATUSES then
        let r := fetchAttempts resp rest
        ⟨r.result, r.attempts + 1, BACKOFF_FACTOR ^ a :: r.sleeps⟩
      else ⟨none, 1, []⟩
    | .exn =>
      let r := fetchAttempts resp rest
      ⟨r.result, r.attempts + 1, BACKOFF_FACTOR ^ a :: r.sleeps⟩

/-- Model of `fetch_url(url)` for a fixed url, abstracted over the
network: `resp a` is the outcome of the attempt numbered `a`, and the
loop runs attempts 1 through `MAX_RETRIES`. -/
def fetch_url (resp : Nat → HttpOutcome) : FetchOut :=
  fetchAttempts resp (List.range' 1 MAX_RETRIES)

/-! ## Path safety (`is_safe_path` in `src/main.py`)

`os.path.realpath` is modelled lexically (no symlinks): a relative path
is joined onto the current working directory and the result is
normalized by resolving dot and dot-dot components, yielding the list of
components of an absolute path.  `os.path.commonpath([b]) ==
os.path.commonpath([b, p])` for absolute normalized `b` and `p` holds
exactly when the components of `b` are a prefix of the components of
`p`. -/

/-- Split a path string at slashes. -/
def splitSlash : List Char → List String
  | [] => [""]
  | c :: rest =>
    if c = '/' then "" :: splitSlash rest
    else
      match splitSlash rest with
      | [] => [⟨[c]⟩]
      | s :: ss => (⟨c :: s.data⟩ : String) :: ss

/-- Normalize the components of an absolute path: empty and dot
components vanish, a dot-dot component removes the previous component
(and is dropped at the root). -/
def normComps (comps : List String) : List String :=
  comps.foldl
    (fun acc c =>
      if c = "" ∨ c = "." then acc
      else if c = ".." then acc.dropLast
      else acc ++ [c]) []

/-- Whether a path string is absolute. -/
def isAbs (p : String) : Bool := "/".data.isPrefixOf p.data

/-- Lexical model of `os.path.realpath(p)` under current working
directory `cwd` (an absolute path): the normalized component list of the
absolute form of `p`. -/
def realpathComps (cwd : String) (p : String) : List String :=
  if isAbs p then normComps (splitSlash p.data)
  else normComps (splitSlash (cwd ++ "/" ++ p).data)

/-- Model of `is_safe_path(base_dir, path)`: both arguments are
resolved with `realpath` and the path is safe when the resolved base is
a component-wise prefix of the resolved path. -/
def is_safe_path (cwd : String) (base_dir : String) (path : String) : Bool :=
  (realpathComps cwd base_dir).isPrefixOf (realpathComps cwd path)

/-- Model of `os.path.join(a, b)` for the use sites in the module: an
absolute second argument replaces the first, otherwise the two are
joined with a slash. -/
def pjoin (a b : String) : String := if isAbs b then b else a ++ "/" ++ b

/-! ## Target pipeline runner (`process_language_targets` in
`src/main.py`)

The filesystem is an association list from file path to content (a file
exists with non-zero size exactly when it is bound to a non-empty
string); the fetcher, the XML well-formedness check and the Atom-to-RSS
transform are oracle parameters.  The runner returns the failure
records, the final filesystem and the list of urls for which a fetch was
attempted, in order. -/

/-- One failure record: `{"url": ..., "filepath": ..., "error": ...}`. -/
structure Failure where
  url : String
  filepath : String
  error : String
deriving DecidableEq, Repr

/-- The observable outcome of a runner call. -/
structure RunOut where
  failures : List Failure
  fs : List (String × String)
  fetched : List String
deriving DecidableEq, Repr

/-- Processing of a single worklist entry, mirroring one iteration of
the loop body: missing filepath, unsafe filepath and missing url are
recorded without fetching; an existing non-empty destination is skipped
silently; otherwise the url is fetched and the result is validated,
transformed and saved, each failure becoming one record. -/
def processOne (cwd : String) (fetch : String → Option String)
    (parseOk : String → Bool) (transform : String → Option String)
    (entry : Entry) (fs : List (String × String)) : RunOut :=
  match entry.filepath with
  | none =>
    ⟨[⟨entry.url.getD "[NO URL]", "[MISSING FILEPATH]", "missing filepath"⟩], fs, []⟩
  | some fp0 =>
    let filepath := pjoin CAPTURES_DIR fp0
    if ¬ is_safe_path cwd CAPTURES_DIR filepath then
      ⟨[⟨entry.url.getD "[NO URL]", filepath, "unsafe filepath"⟩], fs, []⟩
    else
      let url := entry.url.getD "[NO URL]"
      if url = "[NO URL]" then
        ⟨[⟨"[MISSING URL]", filepath, "Missing URL in config entry"⟩], fs, []⟩
      else if (dget fs filepath).getD "" ≠ "" then
        ⟨[], fs, []⟩
      else
        match fetch url with
        | some content =>
          if content = "" then ⟨[⟨url, filepath, "fetch failed"⟩], fs, [url]⟩
          else if ¬ parseOk content then
            ⟨[⟨url, filepath, "invalid XML"⟩], fs, [url]⟩
          else
            match transform content with
            | some t =>
              if t = "" then ⟨[⟨url, filepath, "RSS transformation failed"⟩], fs, [url]⟩
              else ⟨[], fs ++ [(filepath, t)], [url]⟩
            | none => ⟨[⟨url, filepath, "RSS transformation failed"⟩], fs, [url]⟩
        | none => ⟨[⟨url, filepath, "fetch failed"⟩], fs, [url]⟩

/-- Model of `process_language_targets(language_targets, ...)`: the
entries of one language partition are processed strictly in order, each
failure is appended and processing always continues with the next
entry. -/
def process_language_targets (cwd : String) (fetch : String → Option String)
    (parseOk : String → Bool) (transform : String → Option String) :
    List Entry → List (String × String) → RunOut
  | [], fs => ⟨[], fs, []⟩
  | e :: rest, fs =>
    let r := processOne cwd fetch parseOk transform e fs
    let rr := process_language_targets cwd fetch parseOk transform rest r.fs
    ⟨r.failures ++ rr.failures, rr.fs, r.fetched ++ rr.fetched⟩

/-! ## Dates

`transform_atom_to_rss` converts ISO-8601 timestamps to RFC-2822 via
`datetime.fromisoformat(text.replace('Z', '+00:00')).timestamp()` and
`email.utils.formatdate`.  Both are modelled arithmetically with the
standard civil-calendar conversions; a naive timestamp (no offset) is
interpreted as UTC, matching the UTC-clock environment the archiver runs
in. -/

/-- Replace every Z character by the +00:00 suffix, as
`text.replace('Z', '+00:00')` does. -/
def replaceZ (s : String) : String :=
  ⟨s.data.flatMap (fun c => if c = 'Z' then "+00:00".data else [c])⟩

/-- Days from the civil epoch 1970-01-01 for a (year, month, day)
triple. -/
def daysFromCivil (y mo d : Int) : Int :=
  let y' := if mo ≤ 2 then y - 1 else y
  let era := y'.ediv 400
  let yoe := y' - era * 400
  let mp := (mo + 9).emod 12
  let doy := (153 * mp + 2).ediv 5 + d - 1
  let doe := yoe * 365 + yoe.ediv 4 - yoe.ediv 100 + doy
  era * 146097 + doe - 719468

/-- Civil (year, month, day) from days since 1970-01-01. -/
def civilFromDays (days : Int) : Int × Int × Int :=
  let z := days + 719468
  let era := z.ediv 146097
  let doe := z - era * 146097
  let yoe := (doe - doe.ediv 1460 + doe.ediv 36524 - doe.ediv 146096).ediv 365
  let y := yoe + era * 400
  let doy := doe - (365 * yoe + yoe.ediv 4 - yoe.ediv 100)
  let mp := (5 * doy + 2).ediv 153
  let d := doy - (153 * mp + 2).ediv 5 + 1
  let m := mp + (if mp < 10 then 3 else -9)
  (y + (if m ≤ 2 then 1 else 0), m, d)

def isLeap (y : Int) : Bool :=
  y.emod 4 = 0 ∧ (y.emod 100 ≠ 0 ∨ y.emod 400 = 0)

def daysInMonth (y mo : Int) : Int :=
  if mo = 2 then (if isLeap y then 29 else 28)
  else if mo = 4 ∨ mo = 6 ∨ mo = 9 ∨ mo = 11 then 30
  else 31

def digit? (c : Char) : Option Nat :=
  if '0' ≤ c ∧ c ≤ '9' then some (c.toNat - 48) else none

def read2 : List Char → Option (Nat × List Char)
  | a :: b :: rest =>
    match digit? a, digit? b with
    | some x, some y => some (x * 10 + y, rest)
    | _, _ => none
  | _ => none

def read4 : List Char → Option (Nat × List Char)
  | a :: b :: c :: d :: rest =>
    match digit? a, digit? b, digit? c, digit? d with
    | some w, some x, some y, some z => some (w * 1000 + x * 100 + y * 10 + z, rest)
    | _, _, _, _ => none
  | _ => none

def expectChar (c : Char) : List Char → Option (List Char)
  | [] => none
  | x :: rest => if x = c then some rest else none

/-- The optional fractional-seconds part: a dot followed by at least one
digit.  The fraction is discarded, as `formatdate` truncates to whole
seconds. -/
def skipFrac : List Char → Option (List Char)
  | '.' :: rest =>
    let ds := rest.takeWhile (fun c => (digit? c).isSome)
    if ds.isEmpty then none else some (rest.drop ds.length)
  | cs => some cs

/-- The optional trailing UTC offset `±HH:MM`; its absence (a naive
timestamp) counts as zero. -/
def parseOffset : List Char → Option Int
  | [] => some 0
  | '+' :: rest =>
    match read2 rest with
    | some (hh, r1) =>
      match expectChar ':' r1 with
      | some r2 =>
        match read2 r2 with
        | some (mm, []) => some (Int.ofNat (hh * 3600 + mm * 60))
        | _ => none
      | none => none
    | none => none
  | '-' :: rest =>
    match read2 rest with
    | some (hh, r1) =>
      match expectChar ':' r1 with
      | some r2 =>
        match read2 r2 with
        | some (mm, []) => some (-(Int.ofNat (hh * 3600 + mm * 60)))
        | _ => none
      | none => none
    | none => none
  | _ => none

/-- Model of `datetime.fromisoformat(s).timestamp()`: epoch seconds for
a string of the shape `YYYY-MM-DD[THH:MM:SS[.ffffff]][±HH:MM]`, none for
anything unparseable. -/
def parseIso (s : String) : Option Int := do
  let (y, r1) ← read4 s.data
  let r2 ← expectChar '-' r1
  let (mo, r3) ← read2 r2
  let r4 ← expectChar '-' r3
  let (d, r5) ← read2 r4
  if 1 ≤ mo ∧ mo ≤ 12 ∧ 1 ≤ d ∧ Int.ofNat d ≤ daysInMonth (Int.ofNat y) (Int.ofNat mo) then
    let dayPart := daysFromCivil (Int.ofNat y) (Int.ofNat mo) (Int.ofNat d) * 86400
    match r5 with
    | [] => some dayPart
    | sep :: r6 =>
      if sep = 'T' ∨ sep = ' ' then do
        let (hh, r7) ← read2 r6
        let r8 ← expectChar ':' r7
        let (mi, r9) ← read2 r8
        let r10 ← expectChar ':' r9
        let (ss, r11) ← read2 r10
        if hh ≤ 23 ∧ mi ≤ 59 ∧ ss ≤ 59 then do
          let r12 ← skipFrac r11
          let off ← parseOffset r12
          some (dayPart + Int.ofNat (hh * 3600 + mi * 60 + ss) - off)
        else none
      else none
  else none

def digitChar (n : Nat) : Char :=
  match n with
  | 0 => '0' | 1 => '1' | 2 => '2' | 3 => '3' | 4 => '4'
  | 5 => '5' | 6 => '6' | 7 => '7' | 8 => '8' | _ => '9'

def pad2 (n : Nat) : String := ⟨[digitChar (n / 10 % 10), digitChar (n % 10)]⟩

def pad4 (n : Nat) : String :=
  ⟨[digitChar (n / 1000 % 10), digitChar (n / 100 % 10),
    digitChar (n / 10 % 10), digitChar (n % 10)]⟩

def dayNames : List String := ["Mon", "Tue", "Wed", "Thu", "Fri", "Sat", "Sun"]

def monthNames : List String :=
  ["Jan", "Feb", "Mar", "Apr", "May", "Jun",
   "Jul", "Aug", "Sep", "Oct", "Nov", "Dec"]

/-- Model of `email.utils.formatdate(ts)`: the RFC-2822 rendering of an
epoch timestamp with the literal `-0000` zone, for example
`Mon, 01 Jan 2024 00:00:00 -0000`. -/
def formatdate (ts : Int) : String :=
  let days := ts.ediv 86400
  let secs := (ts.emod 86400).toNat
  let ymd := civilFromDays days
  let dow := ((days + 3).emod 7).toNat
  dayNames.getD dow "Mon" ++ ", " ++ pad2 ymd.2.2.toNat ++ " " ++
    monthNames.getD (ymd.2.1.toNat - 1) "Jan" ++ " " ++ pad4 ymd.1.toNat ++ " " ++
    pad2 (secs / 3600) ++ ":" ++ pad2 (secs % 3600 / 60) ++ ":" ++ pad2 (secs % 60) ++
    " -0000"

/-! ## Feed normalization (`transform_atom_to_rss` in `src/main.py`)

The XML tree is abstracted structurally: an Atom entry carries the text
of its child elements when present, and the feed carries its own
optional header elements plus the entry list.  The Python feed-level
searches use the descendant axis, so a missing header element falls back
to the first matching element inside an entry; the finders below mirror
that. -/

structure AtomEntry where
  title : Option String
  link : Option String
  content : Option String
  published : Option String
  updated : Option String
  author : Option String
  idText : Option String
deriving DecidableEq, Repr

structure AtomFeed where
  title : Option String
  link : Option String
  updated : Option String
  entries : List AtomEntry
deriving DecidableEq, Repr

structure RssItem where
  title : Option String
  link : String
  description : Option String
  pubDate : Option String
  author : Option String
  guid : Option String
deriving DecidableEq, Repr

structure RssChannel where
  title : String
  link : String
  description : String
  lastBuildDate : String
  generator : String
  items : List RssItem
deriving DecidableEq, Repr

/-- `root.find('.//{atom}title')`: the feed title element, else the
first title inside any entry (descendant search in document order). -/
def findFeedTitle (f : AtomFeed) : Option String :=
  match f.title with
  | some t => some t
  | none => f.entries.findSome? AtomEntry.title

/-- `root.find('.//{atom}link[@rel="alternate"]')` at feed level, with
the same descendant fallback. -/
def findFeedLink (f : AtomFeed) : Option String :=
  match f.link with
  | some l => some l
  | none => f.entries.findSome? AtomEntry.link

/-- `root.find('.//{atom}updated')` at feed level, with the same
descendant fallback. -/
def findFeedUpdated (f : AtomFeed) : Option String :=
  match f.updated with
  | some u => some u
  | none => f.entries.findSome? AtomEntry.updated

/-- `re.search(r'/posts/([^/?]+)', link)`: the captured slug of the
leftmost match, scanning position by position. -/
def postsSlug : List Char → Option (List Char)
  | [] => none
  | c :: rest =>
    if "/posts/".data.isPrefixOf (c :: rest) then
      let after := (c :: rest).drop 7
      let slug := after.takeWhile (fun ch => ch != '/' && ch != '?')
      if slug.isEmpty then postsSlug rest else some slug
    else postsSlug rest

/-- The literal prefix matched by the href-rewriting regex. -/
def hrefPre : List Char := "href=\"https://www.producthunt.com/posts/".data

/-- Fuel-indexed model of
`re.sub(r'href="https://www\.producthunt\.com/posts/([^"?]+)[^"]*"', ...)`:
each match is rewritten to the archive link built from the captured
slug, and scanning resumes after the match.  The fuel only makes the
recursion structural; the caller supplies the input length. -/
def hrefSub (base : String) : Nat → List Char → List Char
  | _, [] => []
  | 0, cs => cs
  | fuel + 1, c :: rest =>
    if hrefPre.isPrefixOf (c :: rest) then
      let after := (c :: rest).drop hrefPre.length
      let slug := after.takeWhile (fun ch => ch != '"' && ch != '?')
      if slug.isEmpty then c :: hrefSub base fuel rest
      else
        let rest1 := after.drop slug.length
        let mid := rest1.takeWhile (fun ch => ch != '"')
        match rest1.drop mid.length with
        | '"' :: rem =>
          (("href=\"" ++ base ++ "/posts/").data ++ slug ++ ['"']) ++ hrefSub base fuel rem
        | _ => c :: hrefSub base fuel rest
    else c :: hrefSub base fuel rest

/-- The rewriting of ProductHunt post links inside entry content. -/
def rewriteContent (base : String) (content : String) : String :=
  ⟨hrefSub base content.data.length content.data⟩

/-- One RSS item built from one Atom entry: title verbatim; link
rewritten to `<base>/posts/<slug>` when an archive base is configured,
the original link is non-empty and it matches the posts pattern, and
passed through otherwise; description from the entry content with
embedded post hrefs rewritten when a base is configured; pubDate the
RFC-2822 form of the published timestamp, omitted when absent or
unparseable; author and guid verbatim when present. -/
def atomItemToRss (archive_base_url : String) (e : AtomEntry) : RssItem :=
  let original_link := e.link.getD ""
  let link :=
    if archive_base_url ≠ "" ∧ original_link ≠ "" then
      match postsSlug original_link.data with
      | some slug => archive_base_url ++ "/posts/" ++ (⟨slug⟩ : String)
      | none => original_link
    else original_link
  let description :=
    match e.content with
    | some c =>
      some (if archive_base_url ≠ "" then rewriteContent archive_base_url c else c)
    | none => none
  let pubDate :=
    match e.published with
    | some p =>
      match parseIso (replaceZ p) with
      | some ts => some (formatdate ts)
      | none => none
    | none => none
  ⟨e.title, link, description, pubDate, e.author, e.idText⟩

/-- Model of `transform_atom_to_rss(atom_content, archive_base_url)` on
an already-parsed feed: the RSS 2.0 channel with the fixed description
and generator, the archive base (or the feed's own link) as channel
link, a lastBuildDate from the feed's updated timestamp with the current
time (passed as `nowRfc`) as fallback, and one item per entry. -/
def transform_atom_to_rss (feed : AtomFeed) (archive_base_url : String)
    (nowRfc : String) : RssChannel :=
  let feed_title := (findFeedTitle feed).getD "Product Hunt Archive"
  let feed_link := (findFeedLink feed).getD archive_base_url
  let last_build_date :=
    match findFeedUpdated feed with
    | some u =>
      match parseIso (replaceZ u) with
      | some ts => formatdate ts
      | none => nowRfc
    | none => nowRfc
  ⟨feed_title,
   (if archive_base_url ≠ "" then archive_base_url else feed_link),
   "Product Hunt daily archive", last_build_date, "ph-archive",
   feed.entries.map (atomItemToRss archive_base_url)⟩

/-! ## Dictionary lemmas -/

theorem dget_eq_none {α : Type} {d : List (String × α)} {k : String}
    (h : k ∉ d.map Prod.fst) : dget d k = none := by
  induction d with
  | nil => rfl
  | cons p rest ih =>
    simp only [List.map_cons, List.mem_cons, not_or] at h
    have hk : (p.1 == k) = false := by
      simp only [beq_eq_false_iff_ne, ne_eq]
      exact fun e => h.1 e.symm
    simp [dget, ih h.2, hk]

theorem dget_isSome {α : Type} {d : List (String × α)} {k : String}
    (h : k ∈ d.map Prod.fst) : (dget d k).isSome := by
  induction d with
  | nil => simp at h
  | cons p rest ih =>
    simp only [List.map_cons, List.mem_cons] at h
    cases hr : dget rest k with
    | some v => simp [dget, hr]
    | none =>
      rcases h with h | h
      · simp [dget, hr, h.symm]
      · have := ih h
        rw [hr] at this
        simp at this

theorem dget_append {α : Type} (a b : List (String × α)) (k : String) :
    dget (a ++ b) k =
      match dget b k with
      | some v => some v
      | none => dget a k := by
  induction a with
  | nil => cases hb : dget b k <;> simp [dget, hb]
  | cons p a' ih =>
    cases hb : dget b k <;> simp only [hb] at ih ⊢ <;>
      simp [dget, List.cons_append, ih, hb]

theorem dget_perm {α : Type} {d₁ d₂ : List (String × α)} (hp : d₁.Perm d₂)
    (hn : (d₁.map Prod.fst).Nodup) (k : String) : dget d₁ k = dget d₂ k := by
  induction hp with
  | nil => rfl
  | cons x p ih => simp [dget, ih (by simpa using hn.of_cons)]
  | swap x y l =>
    have hxy : y.1 ≠ x.1 := by
      simp only [List.map_cons, List.nodup_cons, List.mem_cons, not_or] at hn
      exact hn.1.1
    cases hl : dget l k with
    | some v => simp [dget, hl]
    | none =>
      by_cases hy : y.1 = k <;> by_cases hx : x.1 = k
      · exact absurd (hy.trans hx.symm) hxy
      · simp [dget, hl, hy, hx]
      · simp [dget, hl, hy, hx]
      · simp [dget, hl, hy, hx]
  | trans p₁ p₂ ih₁ ih₂ =>
    have hn₂ := (p₁.map Prod.fst).nodup hn
    exact (ih₁ hn).trans (ih₂ hn₂)

/-- The two merge layers agree pointwise when their left parts agree
pointwise and their right parts agree pointwise. -/
theorem dget_append_congr {α : Type} {a₁ a₂ b₁ b₂ : List (String × α)}
    (ha : ∀ k, dget a₁ k = dget a₂ k) (hb : ∀ k, dget b₁ k = dget b₂ k) (k : String) :
    dget (a₁ ++ b₁) k = dget (a₂ ++ b₂) k := by
  rw [dget_append, dget_append, hb k]
  cases dget b₂ k <;> simp [ha k]

/-! ## Sorting lemmas -/

theorem insertSorted_perm (x : String) (l : List String) :
    (insertSorted x l).Perm (x :: l) := by
  induction l with
  | nil => rfl
  | cons y ys ih =>
    by_cases h : strLe x y = true
    · simp [insertSorted, h]
    · simp only [insertSorted, h, if_false]
      exact (List.Perm.cons y ih).trans (List.Perm.swap x y ys)

theorem sortStrings_perm (l : List String) : (sortStrings l).Perm l := by
  induction l with
  | nil => rfl
  | cons x xs ih =>
    exact (insertSorted_perm x (sortStrings xs)).trans (List.Perm.cons x ih)

theorem charsLe_cons_iff {a b : Char} {as bs : List Char} :
    charsLe (a :: as) (b :: bs) = true ↔ a < b ∨ (a = b ∧ charsLe as bs = true) := by
  rcases lt_trichotomy a b with h | h | h
  · simp [charsLe, h]
  · subst h; simp [charsLe, lt_irrefl]
  · simp [charsLe, lt_asymm h, ne_of_gt h, h]

theorem charsLe_total (a b : List Char) : charsLe a b = true ∨ charsLe b a = true := by
  induction a generalizing b with
  | nil => left; rfl
  | cons c cs ih =>
    cases b with
    | nil => right; rfl
    | cons d ds =>
      rcases lt_trichotomy c d with h | h | h
      · left; exact charsLe_cons_iff.mpr (Or.inl h)
      · subst h
        rcases ih ds with h' | h'
        · exact Or.inl (charsLe_cons_iff.mpr (Or.inr ⟨rfl, h'⟩))
        · exact Or.inr (charsLe_cons_iff.mpr (Or.inr ⟨rfl, h'⟩))
      · right; exact charsLe_cons_iff.mpr (Or.inl h)

theorem charsLe_trans {a b c : List Char} (h₁ : charsLe a b = true)
    (h₂ : charsLe b c = true) : charsLe a c = true := by
  induction a generalizing b c with
  | nil => rfl
  | cons x xs ih =>
    cases b with
    | nil => simp [charsLe] at h₁
    | cons y ys =>
      cases c with
      | nil => simp [charsLe] at h₂
      | cons z zs =>
        rcases charsLe_cons_iff.mp h₁ with hxy | ⟨hxy, r₁⟩ <;>
          rcases charsLe_cons_iff.mp h₂ with hyz | ⟨hyz, r₂⟩
        · exact charsLe_cons_iff.mpr (Or.inl (hxy.trans hyz))
        · exact charsLe_cons_iff.mpr (Or.inl (hyz ▸ hxy))
        · exact charsLe_cons_iff.mpr (Or.inl (hxy ▸ hyz))
        · exact charsLe_cons_iff.mpr (Or.inr ⟨hxy.trans hyz, ih r₁ r₂⟩)

theorem charsLe_antisymm {a b : List Char} (h₁ : charsLe a b = true)
    (h₂ : charsLe b a = true) : a = b := by
  induction a generalizing b with
  | nil =>
    cases b with
    | nil => rfl
    | cons d ds => simp [charsLe] at h₂
  | cons c cs ih =>
    cases b with
    | nil => simp [charsLe] at h₁
    | cons d ds =>
      rcases charsLe_cons_iff.mp h₁ with h | ⟨h, r₁⟩ <;>
        rcases charsLe_cons_iff.mp h₂ with h' | ⟨h', r₂⟩
      · exact absurd h' (lt_asymm h)
      · exact absurd (h' ▸ h) (lt_irrefl d)
      · exact absurd (h ▸ h') (lt_irrefl d)
      · exact h ▸ congrArg (c :: ·) (ih r₁ r₂)

theorem strLe_total (a b : String) : strLe a b = true ∨ strLe b a = true :=
  charsLe_total a.data b.data

theorem strLe_antisymm {a b : String} (h₁ : strLe a b = true)
    (h₂ : strLe b a = true) : a = b := by
  cases a with
  | mk da =>
    cases b with
    | mk db => exact congrArg String.mk (charsLe_antisymm h₁ h₂)

instance : IsAntisymm String (fun a b => strLe a b = true) :=
  ⟨fun _ _ h₁ h₂ => strLe_antisymm h₁ h₂⟩

theorem mem_insertSorted {z x : String} {l : List String} :
    z ∈ insertSorted x l ↔ z = x ∨ z ∈ l := by
  simpa using (insertSorted_perm x l).mem_iff

theorem insertSorted_pairwise {x : String} {l : List String}
    (h : l.Pairwise (fun a b => strLe a b = true)) :
    (insertSorted x l).Pairwise (fun a b => strLe a b = true) := by
  induction l with
  | nil => simp [insertSorted]
  | cons y ys ih =>
    rcases List.pairwise_cons.mp h with ⟨hy, hys⟩
    by_cases hxy : strLe x y = true
    · simp only [insertSorted, hxy, if_true]
      refine List.pairwise_cons.mpr ⟨?_, h⟩
      intro z hz
      rcases List.mem_cons.mp hz with rfl | hz
      · exact hxy
      · exact charsLe_trans hxy (hy z hz)
    · have hyx : strLe y x = true := (strLe_total x y).resolve_left hxy
      simp only [insertSorted, hxy, if_false]
      refine List.pairwise_cons.mpr ⟨?_, ih hys⟩
      intro z hz
      rcases mem_insertSorted.mp hz with rfl | hz
      · exact hyx
      · exact hy z hz

theorem sortStrings_pairwise (l : List String) :
    (sortStrings l).Pairwise (fun a b => strLe a b = true) := by
  induction l with
  | nil => exact List.Pairwise.nil
  | cons x xs ih => exact insertSorted_pairwise ih

/-- Two sorted key lists that are permutations of each other are
equal. -/
theorem sortStrings_eq_of_perm {l₁ l₂ : List String} (h : l₁.Perm l₂) :
    sortStrings l₁ = sortStrings l₂ :=
  List.eq_of_perm_of_sorted
    ((sortStrings_perm l₁).trans (h.trans (sortStrings_perm l₂).symm))
    (sortStrings_pairwise l₁) (sortStrings_pairwise l₂)

/-! ## Counting lemmas -/

theorem cartProd_length {α : Type} (ls : List (List α)) :
    (cartProd ls).length = (ls.map List.length).prod := by
  induction ls with
  | nil => rfl
  | cons xs rest ih =>
    simp [cartProd, List.length_flatMap, Function.comp_def, ih,
      List.map_const', List.sum_replicate, smul_eq_mul, Nat.mul_comm]

/-- Keys of the list-valued entries, as a sublist of the dict's keys. -/
theorem listOf_keys_sublist (d : List (String × PVal)) :
    ((listOf d).map Prod.fst).Sublist (d.map Prod.fst) := by
  induction d with
  | nil => simp [listOf]
  | cons p rest ih =>
    cases hp : p.2 with
    | s v => simpa [listOf, hp] using ih.cons p.1
    | l vs => simpa [listOf, hp] using ih.cons₂ p.1

/-- Keys of the scalar entries, as a sublist of the dict's keys. -/
theorem fixedOf_keys_sublist (d : List (String × PVal)) :
    ((fixedOf d).map Prod.fst).Sublist (d.map Prod.fst) := by
  induction d with
  | nil => simp [fixedOf]
  | cons p rest ih =>
    cases hp : p.2 with
    | s v => simpa [fixedOf, hp] using ih.cons₂ p.1
    | l vs => simpa [fixedOf, hp] using ih.cons p.1

/-- Looking up each key of a dict with unique keys recovers the values
in order. -/
theorem map_dget_keys {α : Type} (ld : List (String × α))
    (hn : (ld.map Prod.fst).Nodup) :
    (ld.map Prod.fst).map (fun k => dget ld k) = ld.map (fun p => some p.2) := by
  induction ld with
  | nil => rfl
  | cons p rest ih =>
    simp only [List.map_cons, List.nodup_cons] at hn ⊢
    congr 1
    · have hr : dget rest p.1 = none := dget_eq_none hn.1
      simp [dget, hr]
    · rw [List.map_congr_left (g := fun k => dget rest k), ih hn.2]
      intro k hk
      have hs := dget_isSome (d := rest) hk
      cases hr : dget rest k with
      | some v => simp [dget, hr]
      | none => rw [hr] at hs; simp at hs

theorem defsCombos_length (ld : List (String × List String))
    (hn : (ld.map Prod.fst).Nodup) :
    (defsCombos ld).length = (ld.map (fun p => p.2.length)).prod := by
  by_cases he : ld.isEmpty
  · rw [List.isEmpty_iff.mp he]; rfl
  · unfold defsCombos
    rw [if_neg (by simpa using he), List.length_map, cartProd_length, List.map_map]
    have hperm := (sortStrings_perm (ld.map Prod.fst)).map
      (List.length ∘ fun k => (dget ld k).getD [])
    rw [hperm.prod_eq]
    congr 1
    have h2 := congrArg (List.map (fun o : Option (List String) => (o.getD []).length))
      (map_dget_keys ld hn)
    simpa [List.map_map, Function.comp_def] using h2

theorem targetCombos_length (lt : List (String × List String))
    (hn : (lt.map Prod.fst).Nodup) :
    (targetCombos lt).length = (lt.map (fun p => p.2.length)).prod := by
  by_cases he : lt.isEmpty
  · rw [List.isEmpty_iff.mp he]; rfl
  · unfold targetCombos
    rw [if_neg (by simpa using he), List.length_map, cartProd_length, List.map_map]
    have hperm := (sortStrings_perm (lt.map Prod.fst)).map
      (List.length ∘ fun k => (dget lt k).getD [])
    rw [hperm.prod_eq]
    congr 1
    have h2 := congrArg (List.map (fun o : Option (List String) => (o.getD []).length))
      (map_dget_keys lt hn)
    simpa [List.map_map, Function.comp_def] using h2

/-! ## Substitution lemmas -/

theorem substitute_ext {v₁ v₂ : List (String × String)} (today : String)
    (h : ∀ k, dget v₁ k = dget v₂ k) (t : String) :
    substitute t v₁ today = substitute t v₂ today := by
  unfold substitute
  have hf : (fun k => dget (v₁ ++ [("today", today)]) k)
      = (fun k => dget (v₂ ++ [("today", today)]) k) :=
    funext fun k => dget_append_congr h (fun _ => rfl) k
  rw [hf]

theorem takeWhile_no_brace {name : List Char} (h : '}' ∉ name) (rest : List Char) :
    (name ++ '}' :: rest).takeWhile (fun c => c != '}') = name := by
  induction name with
  | nil => simp [List.takeWhile]
  | cons c cs ih =>
    simp only [List.mem_cons, not_or] at h
    have hc : (c != '}') = true := by
      simpa using fun e => h.1 e.symm
    simp only [List.cons_append, List.takeWhile_cons, hc, if_true]
    rw [ih h.2]

theorem tokenAt_exact {name : List Char} (h1 : name ≠ []) (h2 : '}' ∉ name)
    (rest : List Char) : tokenAt (name ++ '}' :: rest) = some (name, rest) := by
  unfold tokenAt
  simp only [takeWhile_no_brace h2 rest, List.drop_left]
  simp [h1]

/-- Substituting a template that is a single brace-delimited token
yields the bound value when the name is bound (with "today" appended to
the scope), and the token itself verbatim otherwise. -/
theorem substAux_nil (look : String → Option String) (fuel : Nat) :
    substAux look fuel [] = [] := by
  cases fuel <;> rfl

theorem substitute_token (varMap : List (String × String)) (today name : String)
    (h1 : name.data ≠ []) (h2 : '}' ∉ name.data) :
    substitute ("\x7b" ++ name ++ "\x7d") varMap today =
      (dget (varMap ++ [("today", today)]) name).getD ("\x7b" ++ name ++ "\x7d") := by
  unfold substitute
  have hdata : ("\x7b" ++ name ++ "\x7d").data = '{' :: (name.data ++ '}' :: []) := by
    simp [String.data_append]
  rw [hdata]
  simp only [List.length_cons, substAux]
  rw [if_neg (show ¬ ('{' : Char) = '$' by decide), if_pos trivial,
    tokenAt_exact h1 h2]
  cases hg : dget (varMap ++ [("today", today)]) name with
  | some v => simp [hg, substAux_nil]
  | none =>
    simp only [hg, substAux_nil, Option.getD_none, List.append_nil]
    exact congrArg String.mk hdata.symm

theorem fetchAttempts_attempts_le (resp : Nat → HttpOutcome) :
    ∀ as : List Nat, (fetchAttempts resp as).attempts ≤ as.length := by
  intro as
  induction as with
  | nil => simp [fetchAttempts]
  | cons a rest ih =>
    simp only [fetchAttempts, List.length_cons]
    cases resp a with
    | response s b =>
      by_cases h200 : s = 200
      · simp [h200]
      · by_cases hr : s ∈ RETRY_STATUSES
        · simp only [h200, if_false, hr, if_true]
          omega
        · simp [h200, hr]
    | exn =>
      simp only []
      omega

/-! ## Claims -/

/-- Claim C1: for every Definitions object whose list-valued axes have
sizes n1..nk and every target template whose own list-valued vars have
sizes m1..mj, `expand_targets` emits exactly n1*...*nk * m1*...*mj
entries for that target; an empty list axis annihilates the whole
context (the product is zero), and a Definitions or target vars with no
list-valued entries contributes exactly one empty combination (the empty
product is one). -/
theorem claim_C1 (defs : List (String × PVal)) (t : Target) (today : String)
    (hd : (defs.map Prod.fst).Nodup) (ht : (t.vars.map Prod.fst).Nodup) :
    (expand_targets defs [t] today).length =
      ((listOf defs).map (fun p => p.2.length)).prod *
        ((listOf t.vars).map (fun p => p.2.length)).prod := by
  unfold expand_targets expandFull
  rw [List.length_map, List.length_flatMap]
  simp only [List.flatMap_cons, List.flatMap_nil, List.append_nil,
    Function.comp_def, List.length_map]
  rw [List.map_const', List.sum_replicate, smul_eq_mul]
  rw [defsCombos_length _ (hd.sublist (listOf_keys_sublist defs)),
    targetCombos_length _ (ht.sublist (listOf_keys_sublist t.vars))]

theorem claim_C1_witness :
    ((List.map Prod.fst
        ([("b", PVal.l ["1", "2"]), ("a", PVal.l ["x", "y", "z"])])).Nodup) ∧
    (expand_targets [("b", PVal.l ["1", "2"]), ("a", PVal.l ["x", "y", "z"])]
        [⟨some "f", some "u", [("c", PVal.l ["p", "q"])]⟩] "D").length = 12 := by
  refine ⟨by decide, ?_⟩
  have h := claim_C1 [("b", PVal.l ["1", "2"]), ("a", PVal.l ["x", "y", "z"])]
    ⟨some "f", some "u", [("c", PVal.l ["p", "q"])]⟩ "D" (by decide) (by decide)
  exact h.trans (by decide)

/-- Claim C6: `substitute` replaces each dollar-brace or brace token
whose name is bound (in the mapping augmented with "today") by the
value, leaves unknown tokens verbatim without error, and performs no
recursive re-substitution; in particular the lang example substitutes,
the unknown token passes through, the implicit today variable is
available, and a substituted value containing a token is not expanded
again. -/
theorem claim_C6 :
    (∀ (varMap : List (String × String)) (today name : String),
        name.data ≠ [] → '}' ∉ name.data →
        substitute ("\x7b" ++ name ++ "\x7d") varMap today =
          (dget (varMap ++ [("today", today)]) name).getD ("\x7b" ++ name ++ "\x7d"))
    ∧ (∀ today, substitute "{lang}/feed.xml" [("lang", "en")] today = "en/feed.xml")
    ∧ (∀ today, substitute "{x}" [] today = "{x}")
    ∧ (∀ today, substitute "{today}" [] today = today)
    ∧ (∀ today, substitute "{x}" [("x", "{y}"), ("y", "z")] today = "{y}") := by
  refine ⟨substitute_token, fun today => rfl, fun today => rfl, ?_, fun today => rfl⟩
  intro today
  exact (substitute_token [] today "today" (by decide) (by decide)).trans rfl

theorem claim_C6_witness :
    substitute ("\x7b" ++ "lang" ++ "\x7d") [("lang", "en")] "D" =
      (dget ([("lang", "en")] ++ [("today", "D")]) "lang").getD ("\x7b" ++ "lang" ++ "\x7d") :=
  claim_C6.1 [("lang", "en")] "D" "lang" (by decide) (by decide)

/-- Claim C10: every entry produced by `expand_targets` carries both a
filepath and a url value (possibly the empty string), so the runner's
missing-filepath and key-absence checks cannot fire on
expander-produced entries. -/
theorem claim_C10 (defs : List (String × PVal)) (targets : List Target)
    (today : String) (e : Entry) (he : e ∈ expand_targets defs targets today) :
    (∃ s, e.filepath = some s) ∧ (∃ s, e.url = some s) := by
  simp only [expand_targets, List.mem_map] at he
  obtain ⟨p, hp, rfl⟩ := he
  simp only [expandFull, List.mem_flatMap, List.mem_map] at hp
  obtain ⟨combo, hc, t, ht, tc, htc, rfl⟩ := hp
  exact ⟨⟨_, rfl⟩, ⟨_, rfl⟩⟩

theorem claim_C10_witness :
    (∃ s, (⟨some "f", some "u", none⟩ : Entry).filepath = some s) ∧
      (∃ s, (⟨some "f", some "u", none⟩ : Entry).url = some s) :=
  claim_C10 [] [⟨some "f", some "u", []⟩] "D" ⟨some "f", some "u", none⟩ (by decide)

/-- Claim C2 counterexample: with the single defs list axis "langs"
whose only value is the empty string, the merged scope of the single
emitted entry binds the lang-shaped variable (the singularized "langs"
key) to the empty string, yet the entry carries no lang field — the
Python truthiness test `if lang:` drops empty-string values, so the
claim as stated fails at this input. -/
theorem claim_C2_counterexample :
    (expandFull [("langs", PVal.l [""])] [⟨some "f", some "u", []⟩] "D").map
        (fun p => (p.1.lang, dget p.2 (langKey [("langs", PVal.l [""])]))) =
      [(none, some "")] := by decide

/-- Claim C2 (amended): for every expanded entry, if the lang-shaped
variable (the lookup key produced by applying the singularization
heuristic to the defs-level "langs" axis) is bound in the merged
variable scope to a non-empty value, the emitted entry carries that
value as its lang field; an empty-string value is falsy in Python and
yields an entry without a lang field. -/
theorem claim_C2 (defs : List (String × PVal)) (targets : List Target)
    (today : String) (p : Entry × List (String × String))
    (hp : p ∈ expandFull defs targets today) (v : String)
    (hv : dget p.2 (langKey defs) = some v) (hne : v ≠ "") :
    p.1.lang = some v := by
  simp only [expandFull, List.mem_flatMap, List.mem_map] at hp
  obtain ⟨combo, hc, t, ht, tc, htc, rfl⟩ := hp
  show (mkEntry defs combo t tc today).lang = some v
  have hv' : dget (mkAllVars defs combo t tc today) (langKey defs) = some v := hv
  show (match dget (mkAllVars defs combo t tc today) (langKey defs) with
        | some w => if w = "" then none else some w
        | none => none) = some v
  rw [hv']
  simp [hne]

theorem claim_C2_witness :
    ((⟨some "f", some "u", some "en"⟩, [("lang", "en"), ("base", "")]) :
        Entry × List (String × String)).1.lang = some "en" :=
  claim_C2 [("langs", PVal.l ["en"])] [⟨some "f", some "u", []⟩] "D"
    (⟨some "f", some "u", some "en"⟩, [("lang", "en"), ("base", "")])
    (by decide) "en" (by decide) (by decide)

/-- Claim C3: `fetch_url` returns the body on HTTP 200; on a status in
{429, 500, 502, 503, 504} or a transport error it sleeps
`BACKOFF_FACTOR ^ attempt` seconds and retries, making at most
`MAX_RETRIES` total attempts before returning a definitive failure; any
other non-200 status fails immediately with no retry; three consecutive
503 responses yield a definitive failure after exactly `MAX_RETRIES`
attempts with exponential back-off sleeps. -/
theorem claim_C3 :
    (∀ (resp : Nat → HttpOutcome) (b : String),
        resp 1 = .response 200 b → fetch_url resp = ⟨some b, 1, []⟩)
    ∧ (∀ (resp : Nat → HttpOutcome) (s : Nat) (b : String),
        resp 1 = .response s b → s ≠ 200 → s ∉ RETRY_STATUSES →
        fetch_url resp = ⟨none, 1, []⟩)
    ∧ (∀ (resp : Nat → HttpOutcome) (bodies : Nat → String),
        (∀ a, 1 ≤ a → a ≤ MAX_RETRIES → resp a = .response 503 (bodies a)) →
        fetch_url resp =
          ⟨none, MAX_RETRIES, [BACKOFF_FACTOR ^ 1, BACKOFF_FACTOR ^ 2, BACKOFF_FACTOR ^ 3]⟩)
    ∧ (∀ (resp : Nat → HttpOutcome) (b : String),
        resp 1 = .exn → resp 2 = .response 200 b →
        fetch_url resp = ⟨some b, 2, [BACKOFF_FACTOR ^ 1]⟩)
    ∧ (∀ resp, (fetch_url resp).attempts ≤ MAX_RETRIES) := by
  have hrange : List.range' 1 MAX_RETRIES = [1, 2, 3] := rfl
  refine ⟨?_, ?_, ?_, ?_, ?_⟩
  · intro resp b h
    simp [fetch_url, hrange, fetchAttempts, h]
  · intro resp s b h h200 hretry
    simp [fetch_url, hrange, fetchAttempts, h, h200, hretry]
  · intro resp bodies h
    have h1 := h 1 (by decide) (by decide)
    have h2 := h 2 (by decide) (by decide)
    have h3 := h 3 (by decide) (by decide)
    simp [fetch_url, hrange, fetchAttempts, h1, h2, h3, RETRY_STATUSES, MAX_RETRIES]
  · intro resp b h1 h2
    simp [fetch_url, hrange, fetchAttempts, h1, h2]
  · intro resp
    exact le_trans (fetchAttempts_attempts_le resp _) (by rw [hrange]; exact le_refl 3)

theorem claim_C3_witness :
    fetch_url (fun _ => HttpOutcome.response 503 "x") =
      ⟨none, MAX_RETRIES, [BACKOFF_FACTOR ^ 1, BACKOFF_FACTOR ^ 2, BACKOFF_FACTOR ^ 3]⟩ :=
  claim_C3.2.2.1 (fun _ => HttpOutcome.response 503 "x") (fun _ => "x")
    (fun _ _ _ => rfl)

/-- An entry whose destination already exists with non-empty content is
skipped: success, no failure record, no fetch, filesystem unchanged. -/
theorem processOne_skip (cwd : String) (fetch : String → Option String)
    (parseOk : String → Bool) (transform : String → Option String)
    (e : Entry) (fp0 : String) (fs : List (String × String)) (c : String)
    (h1 : e.filepath = some fp0)
    (h2 : is_safe_path cwd CAPTURES_DIR (pjoin CAPTURES_DIR fp0) = true)
    (h3 : e.url.getD "[NO URL]" ≠ "[NO URL]")
    (h4 : dget fs (pjoin CAPTURES_DIR fp0) = some c) (h5 : c ≠ "") :
    processOne cwd fetch parseOk transform e fs = ⟨[], fs, []⟩ := by
  cases e with
  | mk fp url lang =>
    cases h1
    simp [processOne, h2, h3, h4, h5]

/-- Claim C4: a target whose destination file already exists with
non-zero size is treated as already archived: the runner returns
success for it with no fetch, no failure record, and the filesystem
untouched; consequently a whole worklist whose destinations are all
populated is processed with zero fetches, zero failures and no
filesystem change. -/
theorem claim_C4 :
    (∀ (cwd : String) (fetch : String → Option String) (parseOk : String → Bool)
        (transform : String → Option String) (e : Entry) (fp0 : String)
        (fs : List (String × String)) (c : String),
        e.filepath = some fp0 →
        is_safe_path cwd CAPTURES_DIR (pjoin CAPTURES_DIR fp0) = true →
        e.url.getD "[NO URL]" ≠ "[NO URL]" →
        dget fs (pjoin CAPTURES_DIR fp0) = some c → c ≠ "" →
        processOne cwd fetch parseOk transform e fs = ⟨[], fs, []⟩)
    ∧ (∀ (cwd : String) (fetch : String → Option String) (parseOk : String → Bool)
        (transform : String → Option String) (l : List Entry)
        (fs : List (String × String)),
        (∀ e ∈ l, ∃ fp0 c, e.filepath = some fp0 ∧
          is_safe_path cwd CAPTURES_DIR (pjoin CAPTURES_DIR fp0) = true ∧
          e.url.getD "[NO URL]" ≠ "[NO URL]" ∧
          dget fs (pjoin CAPTURES_DIR fp0) = some c ∧ c ≠ "") →
        process_language_targets cwd fetch parseOk transform l fs = ⟨[], fs, []⟩) := by
  refine ⟨processOne_skip, ?_⟩
  intro cwd fetch parseOk transform l fs h
  induction l with
  | nil => rfl
  | cons e rest ih =>
    obtain ⟨fp0, c, h1, h2, h3, h4, h5⟩ := h e (List.mem_cons_self e rest)
    have hr : processOne cwd fetch parseOk transform e fs = ⟨[], fs, []⟩ :=
      processOne_skip cwd fetch parseOk transform e fp0 fs c h1 h2 h3 h4 h5
    have hrest := ih (fun x hx => h x (List.mem_cons_of_mem _ hx))
    simp [process_language_targets, hr, hrest]

theorem claim_C4_witness :
    process_language_targets "/w" (fun _ => none) (fun _ => true) (fun _ => none)
        [⟨some "en/feed.xml", some "http://u", none⟩]
        [("rss/en/feed.xml", "x")] =
      ⟨[], [("rss/en/feed.xml", "x")], []⟩ :=
  claim_C4.2 "/w" (fun _ => none) (fun _ => true) (fun _ => none)
    [⟨some "en/feed.xml", some "http://u", none⟩] [("rss/en/feed.xml", "x")]
    (fun e he => by
      rw [List.mem_singleton.mp he]
      exact ⟨"en/feed.xml", "x", rfl, by decide, by decide, by decide, by decide⟩)

/-- Claim C5: an entry whose joined destination path does not resolve
inside the output root is recorded as an unsafe-filepath failure with no
fetch ever attempted; with root /archive the traversal path
/archive/../../etc/passwd is rejected and /archive/sub/file.xml is
accepted. -/
theorem claim_C5 :
    (∀ (cwd : String) (fetch : String → Option String) (parseOk : String → Bool)
        (transform : String → Option String) (e : Entry) (fp0 : String)
        (fs : List (String × String)),
        e.filepath = some fp0 →
        is_safe_path cwd CAPTURES_DIR (pjoin CAPTURES_DIR fp0) = false →
        processOne cwd fetch parseOk transform e fs =
          ⟨[⟨e.url.getD "[NO URL]", pjoin CAPTURES_DIR fp0, "unsafe filepath"⟩],
            fs, []⟩)
    ∧ (∀ cwd, is_safe_path cwd "/archive" "/archive/../../etc/passwd" = false)
    ∧ (∀ cwd, is_safe_path cwd "/archive" "/archive/sub/file.xml" = true) := by
  refine ⟨?_, fun cwd => rfl, fun cwd => rfl⟩
  intro cwd fetch parseOk transform e fp0 fs h1 h2
  cases e with
  | mk fp url lang =>
    cases h1
    simp [processOne, h2]

theorem claim_C5_witness :
    processOne "/w" (fun _ => some "b") (fun _ => true) (fun _ => none)
        ⟨some "../../etc/passwd", some "u", none⟩ [] =
      ⟨[⟨"u", pjoin CAPTURES_DIR "../../etc/passwd", "unsafe filepath"⟩], [], []⟩ :=
  claim_C5.1 "/w" (fun _ => some "b") (fun _ => true) (fun _ => none)
    ⟨some "../../etc/passwd", some "u", none⟩ "../../etc/passwd" [] rfl (by decide)

/-- Claim C9: every target-scoped failure kind (missing filepath,
unsafe filepath, missing URL, fetch failure, invalid XML, transform
failure) is recorded as one failure record and processing always
continues with the next target: the runner's outcome on a cons is the
entry's own outcome followed by the outcome on the rest, and each
failure case yields exactly its record.  A transform returning no
document (the Python function catches every construction exception and
returns None) becomes the normalization-failure record rather than a
crash. -/
theorem claim_C9 :
    (∀ (cwd : String) (fetch : String → Option String) (parseOk : String → Bool)
        (transform : String → Option String) (e : Entry) (rest : List Entry)
        (fs : List (String × String)),
        process_language_targets cwd fetch parseOk transform (e :: rest) fs =
          ⟨(processOne cwd fetch parseOk transform e fs).failures ++
              (process_language_targets cwd fetch parseOk transform rest
                (processOne cwd fetch parseOk transform e fs).fs).failures,
            (process_language_targets cwd fetch parseOk transform rest
              (processOne cwd fetch parseOk transform e fs).fs).fs,
            (processOne cwd fetch parseOk transform e fs).fetched ++
              (process_language_targets cwd fetch parseOk transform rest
                (processOne cwd fetch parseOk transform e fs).fs).fetched⟩)
    ∧ (∀ (cwd : String) (fetch : String → Option String) (parseOk : String → Bool)
        (transform : String → Option String) (e : Entry)
        (fs : List (String × String)), e.filepath = none →
        processOne cwd fetch parseOk transform e fs =
          ⟨[⟨e.url.getD "[NO URL]", "[MISSING FILEPATH]", "missing filepath"⟩],
            fs, []⟩)
    ∧ (∀ (cwd : String) (fetch : String → Option String) (parseOk : String → Bool)
        (transform : String → Option String) (e : Entry) (fp0 : String)
        (fs : List (String × String)),
        e.filepath = some fp0 →
        is_safe_path cwd CAPTURES_DIR (pjoin CAPTURES_DIR fp0) = false →
        processOne cwd fetch parseOk transform e fs =
          ⟨[⟨e.url.getD "[NO URL]", pjoin CAPTURES_DIR fp0, "unsafe filepath"⟩],
            fs, []⟩)
    ∧ (∀ (cwd : String) (fetch : String → Option String) (parseOk : String → Bool)
        (transform : String → Option String) (e : Entry) (fp0 : String)
        (fs : List (String × String)),
        e.filepath = some fp0 →
        is_safe_path cwd CAPTURES_DIR (pjoin CAPTURES_DIR fp0) = true →
        e.url.getD "[NO URL]" = "[NO URL]" →
        processOne cwd fetch parseOk transform e fs =
          ⟨[⟨"[MISSING URL]", pjoin CAPTURES_DIR fp0, "Missing URL in config entry"⟩],
            fs, []⟩)
    ∧ (∀ (cwd : String) (fetch : String → Option String) (parseOk : String → Bool)
        (transform : String → Option String) (e : Entry) (fp0 : String)
        (fs : List (String × String)),
        e.filepath = some fp0 →
        is_safe_path cwd CAPTURES_DIR (pjoin CAPTURES_DIR fp0) = true →
        e.url.getD "[NO URL]" ≠ "[NO URL]" →
        (dget fs (pjoin CAPTURES_DIR fp0)).getD "" = "" →
        fetch (e.url.getD "[NO URL]") = none →
        processOne cwd fetch parseOk transform e fs =
          ⟨[⟨e.url.getD "[NO URL]", pjoin CAPTURES_DIR fp0, "fetch failed"⟩],
            fs, [e.url.getD "[NO URL]"]⟩)
    ∧ (∀ (cwd : String) (fetch : String → Option String) (parseOk : String → Bool)
        (transform : String → Option String) (e : Entry) (fp0 : String)
        (fs : List (String × String)) (c : String),
        e.filepath = some fp0 →
        is_safe_path cwd CAPTURES_DIR (pjoin CAPTURES_DIR fp0) = true →
        e.url.getD "[NO URL]" ≠ "[NO URL]" →
        (dget fs (pjoin CAPTURES_DIR fp0)).getD "" = "" →
        fetch (e.url.getD "[NO URL]") = some c → c ≠ "" → parseOk c = false →
        processOne cwd fetch parseOk transform e fs =
          ⟨[⟨e.url.getD "[NO URL]", pjoin CAPTURES_DIR fp0, "invalid XML"⟩],
            fs, [e.url.getD "[NO URL]"]⟩)
    ∧ (∀ (cwd : String) (fetch : String → Option String) (parseOk : String → Bool)
        (transform : String → Option String) (e : Entry) (fp0 : String)
        (fs : List (String × String)) (c : String),
        e.filepath = some fp0 →
        is_safe_path cwd CAPTURES_DIR (pjoin CAPTURES_DIR fp0) = true →
        e.url.getD "[NO URL]" ≠ "[NO URL]" →
        (dget fs (pjoin CAPTURES_DIR fp0)).getD "" = "" →
        fetch (e.url.getD "[NO URL]") = some c → c ≠ "" → parseOk c = true →
        transform c = none →
        processOne cwd fetch parseOk transform e fs =
          ⟨[⟨e.url.getD "[NO URL]", pjoin CAPTURES_DIR fp0,
              "RSS transformation failed"⟩],
            fs, [e.url.getD "[NO URL]"]⟩) := by
  refine ⟨fun cwd fetch parseOk transform e rest fs => rfl, ?_, ?_, ?_, ?_, ?_, ?_⟩
  · intro cwd fetch parseOk transform e fs h
    cases e with
    | mk fp url lang => cases h; simp [processOne]
  · intro cwd fetch parseOk transform e fp0 fs h1 h2
    cases e with
    | mk fp url lang => cases h1; simp [processOne, h2]
  · intro cwd fetch parseOk transform e fp0 fs h1 h2 h3
    cases e with
    | mk fp url lang =>
      cases h1
      simp [processOne, h2, h3]
  · intro cwd fetch parseOk transform e fp0 fs h1 h2 h3 h4 h5
    cases e with
    | mk fp url lang =>
      cases h1
      simp [processOne, h2, h3, h4, h5]
  · intro cwd fetch parseOk transform e fp0 fs c h1 h2 h3 h4 h5 h6 h7
    cases e with
    | mk fp url lang =>
      cases h1
      simp [processOne, h2, h3, h4, h5, h6, h7]
  · intro cwd fetch parseOk transform e fp0 fs c h1 h2 h3 h4 h5 h6 h7 h8
    cases e with
    | mk fp url lang =>
      cases h1
      simp [processOne, h2, h3, h4, h5, h6, h7, h8]

theorem claim_C9_witness :
    processOne "/w" (fun _ => some "<x/>") (fun _ => true) (fun _ => none)
        ⟨some "a", some "u", none⟩ [] =
      ⟨[⟨"u", pjoin CAPTURES_DIR "a", "RSS transformation failed"⟩],
        [], ["u"]⟩ :=
  claim_C9.2.2.2.2.2.2 "/w" (fun _ => some "<x/>") (fun _ => true) (fun _ => none)
    ⟨some "a", some "u", none⟩ "a" [] "<x/>" rfl (by decide) (by decide) rfl rfl
    (by decide) rfl rfl

/-- Claim C8: when the archive base url is non-empty and an entry's
alternate link matches the posts-slug pattern, the emitted item link is
the archive base followed by /posts/ and the slug; otherwise the
original link passes through unchanged.  The spec's example entry yields
the item with the rewritten link, description hello and the RFC-2822
pubDate for 2024-01-01. -/
theorem claim_C8 :
    (∀ (feed : AtomFeed) (base now : String),
        (transform_atom_to_rss feed base now).items =
          feed.entries.map (atomItemToRss base))
    ∧ (∀ (base : String) (e : AtomEntry) (l : String) (s : List Char),
        base ≠ "" → e.link = some l → l ≠ "" → postsSlug l.data = some s →
        (atomItemToRss base e).link = base ++ "/posts/" ++ (⟨s⟩ : String))
    ∧ (∀ (base : String) (e : AtomEntry) (l : String),
        e.link = some l → postsSlug l.data = none →
        (atomItemToRss base e).link = l)
    ∧ (∀ e : AtomEntry, (atomItemToRss "" e).link = e.link.getD "")
    ∧ (∀ now, (transform_atom_to_rss
        ⟨none, none, none,
          [⟨some "A", some "https://www.producthunt.com/posts/x", some "hello",
            some "2024-01-01T00:00:00Z", none, none, none⟩]⟩
        "https://arc.example" now).items =
        [⟨some "A", "https://arc.example/posts/x", some "hello",
          some "Mon, 01 Jan 2024 00:00:00 -0000", none, none⟩])
    ∧ parseIso (replaceZ "2024-01-01T00:00:00Z") = some 1704067200
    ∧ formatdate 1704067200 = "Mon, 01 Jan 2024 00:00:00 -0000" := by
  refine ⟨fun feed base now => rfl, ?_, ?_, ?_, fun now => rfl, by decide, by decide⟩
  · intro base e l s hb hl hne hs
    cases e with
    | mk t li co pu up au idt =>
      cases hl
      simp [atomItemToRss, hb, hne, hs]
  · intro base e l hl hs
    cases e with
    | mk t li co pu up au idt =>
      cases hl
      by_cases hb : base = ""
      · simp [atomItemToRss, hb]
      · by_cases hne : l = ""
        · simp [atomItemToRss, hne]
        · simp [atomItemToRss, hb, hne, hs]
  · intro e
    simp [atomItemToRss]

theorem claim_C8_witness :
    (atomItemToRss "https://arc.example"
        ⟨some "A", some "https://www.producthunt.com/posts/x", some "hello",
          some "2024-01-01T00:00:00Z", none, none, none⟩).link =
      "https://arc.example" ++ "/posts/" ++ (⟨['x']⟩ : String) :=
  claim_C8.2.1 "https://arc.example"
    ⟨some "A", some "https://www.producthunt.com/posts/x", some "hello",
      some "2024-01-01T00:00:00Z", none, none, none⟩
    "https://www.producthunt.com/posts/x" ['x'] (by decide) rfl (by decide)
    (by decide)

/-! ## Insertion-order invariance (Claim C7)

The expander iterates both combination levels over the sorted
list-variable names and reads every other dict only through key lookup,
so its output is invariant under reordering of the configuration dicts
(which have unique keys).  The lemmas below make that precise. -/

theorem isEmpty_eq_of_perm {α : Type} {l₁ l₂ : List α} (h : l₁.Perm l₂) :
    l₁.isEmpty = l₂.isEmpty := by
  apply Bool.eq_iff_iff.mpr
  rw [List.isEmpty_iff, List.isEmpty_iff, ← List.length_eq_zero,
    ← List.length_eq_zero, h.length_eq]

theorem defsCombos_perm {ld₁ ld₂ : List (String × List String)} (hp : ld₁.Perm ld₂)
    (hn : (ld₁.map Prod.fst).Nodup) : defsCombos ld₁ = defsCombos ld₂ := by
  simp only [defsCombos]
  rw [isEmpty_eq_of_perm hp]
  by_cases he : ld₂.isEmpty
  · rw [if_pos he, if_pos he]
  · have hvals :
        List.map (fun k => (dget ld₁ k).getD []) (sortStrings (List.map Prod.fst ld₂))
          = List.map (fun k => (dget ld₂ k).getD [])
              (sortStrings (List.map Prod.fst ld₂)) :=
      List.map_congr_left fun k _ => by rw [dget_perm hp hn k]
    rw [if_neg he, if_neg he, sortStrings_eq_of_perm (hp.map Prod.fst), hvals]

theorem targetCombos_perm {lt₁ lt₂ : List (String × List String)} (hp : lt₁.Perm lt₂)
    (hn : (lt₁.map Prod.fst).Nodup) : targetCombos lt₁ = targetCombos lt₂ := by
  simp only [targetCombos]
  rw [isEmpty_eq_of_perm hp]
  by_cases he : lt₂.isEmpty
  · rw [if_pos he, if_pos he]
  · have hvals :
        List.map (fun k => (dget lt₁ k).getD []) (sortStrings (List.map Prod.fst lt₂))
          = List.map (fun k => (dget lt₂ k).getD [])
              (sortStrings (List.map Prod.fst lt₂)) :=
      List.map_congr_left fun k _ => by rw [dget_perm hp hn k]
    rw [if_neg he, if_neg he, sortStrings_eq_of_perm (hp.map Prod.fst), hvals]

theorem listOf_perm {d₁ d₂ : List (String × PVal)} (hp : d₁.Perm d₂) :
    (listOf d₁).Perm (listOf d₂) :=
  hp.filterMap _

theorem fixedOf_perm {d₁ d₂ : List (String × PVal)} (hp : d₁.Perm d₂) :
    (fixedOf d₁).Perm (fixedOf d₂) :=
  hp.filterMap _

theorem baseOf_perm {d₁ d₂ : List (String × PVal)} (hp : d₁.Perm d₂)
    (hn : (d₁.map Prod.fst).Nodup) : baseOf d₁ = baseOf d₂ := by
  unfold baseOf
  rw [dget_perm hp hn "base"]

theorem langKey_perm {d₁ d₂ : List (String × PVal)} (hp : d₁.Perm d₂) :
    langKey d₁ = langKey d₂ := by
  unfold langKey
  have hany : ((listOf d₁).any (fun p => p.1 == "langs"))
      = ((listOf d₂).any (fun p => p.1 == "langs")) := by
    apply Bool.eq_iff_iff.mpr
    simp only [List.any_eq_true]
    exact ⟨fun ⟨x, hx, hfx⟩ => ⟨x, (listOf_perm hp).mem_iff.mp hx, hfx⟩,
      fun ⟨x, hx, hfx⟩ => ⟨x, (listOf_perm hp).mem_iff.mpr hx, hfx⟩⟩
  rw [hany]

/-- The merged per-entry scopes built from permuted configuration dicts
agree on every key. -/
theorem mkAllVars_ext {defs₁ defs₂ : List (String × PVal)}
    (combo : List (String × String)) {t₁ t₂ : Target}
    (tc : List (String × String)) (today : String)
    (hperm : defs₁.Perm defs₂) (hnd : (defs₁.map Prod.fst).Nodup)
    (hv : t₁.vars.Perm t₂.vars) (hvn : (t₁.vars.map Prod.fst).Nodup) :
    ∀ k, dget (mkAllVars defs₁ combo t₁ tc today) k
        = dget (mkAllVars defs₂ combo t₂ tc today) k := by
  have hfix : ∀ k, dget (fixedOf defs₁) k = dget (fixedOf defs₂) k :=
    dget_perm (fixedOf_perm hperm) (hnd.sublist (fixedOf_keys_sublist defs₁))
  have hfixT : ∀ k, dget (fixedOf t₁.vars) k = dget (fixedOf t₂.vars) k :=
    dget_perm (fixedOf_perm hv) (hvn.sublist (fixedOf_keys_sublist t₁.vars))
  have hbase_vars : ∀ k, dget (fixedOf defs₁ ++ combo) k
      = dget (fixedOf defs₂ ++ combo) k :=
    fun k => dget_append_congr hfix (fun _ => rfl) k
  have hsub : substitute (baseOf defs₁) (fixedOf defs₁ ++ combo) today
      = substitute (baseOf defs₂) (fixedOf defs₂ ++ combo) today := by
    rw [baseOf_perm hperm hnd]
    exact substitute_ext today hbase_vars _
  intro k
  unfold mkAllVars
  apply dget_append_congr _ (fun _ => rfl)
  apply dget_append_congr _ hfixT
  apply dget_append_congr hbase_vars
  intro k'
  rw [hsub]

/-- One emitted entry is unchanged when the configuration dicts are
reordered. -/
theorem mkEntry_congr {defs₁ defs₂ : List (String × PVal)}
    (combo : List (String × String)) {t₁ t₂ : Target}
    (tc : List (String × String)) (today : String)
    (hperm : defs₁.Perm defs₂) (hnd : (defs₁.map Prod.fst).Nodup)
    (hfp : t₁.filepath = t₂.filepath) (hurl : t₁.url = t₂.url)
    (hv : t₁.vars.Perm t₂.vars) (hvn : (t₁.vars.map Prod.fst).Nodup) :
    mkEntry defs₁ combo t₁ tc today = mkEntry defs₂ combo t₂ tc today := by
  have hext := mkAllVars_ext combo tc today hperm hnd hv hvn
  have h1 : substitute (t₁.filepath.getD "") (mkAllVars defs₁ combo t₁ tc today) today
      = substitute (t₂.filepath.getD "") (mkAllVars defs₂ combo t₂ tc today) today := by
    rw [hfp]
    exact substitute_ext today hext _
  have h2 : substitute (t₁.url.getD "") (mkAllVars defs₁ combo t₁ tc today) today
      = substitute (t₂.url.getD "") (mkAllVars defs₂ combo t₂ tc today) today := by
    rw [hurl]
    exact substitute_ext today hext _
  have h3 : dget (mkAllVars defs₁ combo t₁ tc today) (langKey defs₁)
      = dget (mkAllVars defs₂ combo t₂ tc today) (langKey defs₂) := by
    rw [langKey_perm hperm]
    exact hext (langKey defs₂)
  simp only [mkEntry]
  rw [h1, h2, h3]

/-- `expand_targets` as the projection of the instrumented expander. -/
theorem expand_targets_eq (defs : List (String × PVal)) (ts : List Target)
    (today : String) :
    expand_targets defs ts today =
      (defsCombos (listOf defs)).flatMap (fun combo =>
        ts.flatMap (fun t =>
          (targetCombos (listOf t.vars)).map (fun tc =>
            mkEntry defs combo t tc today))) := by
  simp only [expand_targets, expandFull, List.map_flatMap, List.map_map]
  rfl

theorem flatMap_forall₂ {α β : Type} {R : α → α → Prop} {l₁ l₂ : List α}
    (h : List.Forall₂ R l₁ l₂) {f₁ f₂ : α → List β}
    (hf : ∀ a₁ a₂, R a₁ a₂ → f₁ a₁ = f₂ a₂) :
    l₁.flatMap f₁ = l₂.flatMap f₂ := by
  induction h with
  | nil => rfl
  | cons hr hrest ih =>
    simp only [List.flatMap_cons]
    rw [hf _ _ hr, ih]

/-- Claim C7: `expand_targets` is a pure function of its inputs and its
combination axes are iterated in sorted (lexicographic) order of the
list-variable names rather than dict insertion order: reordering the
Definitions dict and each target's vars dict (both of which have unique
keys, being Python dicts) leaves the ordered worklist unchanged, at the
defs level and at each target's vars level. -/
theorem claim_C7 (defs₁ defs₂ : List (String × PVal)) (ts₁ ts₂ : List Target)
    (today : String) (hperm : defs₁.Perm defs₂)
    (hnd : (defs₁.map Prod.fst).Nodup)
    (hts : List.Forall₂ (fun t₁ t₂ => t₁.filepath = t₂.filepath ∧
      t₁.url = t₂.url ∧ t₁.vars.Perm t₂.vars ∧ (t₁.vars.map Prod.fst).Nodup)
      ts₁ ts₂) :
    expand_targets defs₁ ts₁ today = expand_targets defs₂ ts₂ today := by
  rw [expand_targets_eq, expand_targets_eq]
  rw [defsCombos_perm (listOf_perm hperm) (hnd.sublist (listOf_keys_sublist defs₁))]
  apply congrArg (List.flatMap (defsCombos (listOf defs₂)))
  funext combo
  apply flatMap_forall₂ hts
  intro t₁ t₂ ⟨hfp, hurl, hv, hvn⟩
  rw [targetCombos_perm (listOf_perm hv) (hvn.sublist (listOf_keys_sublist t₁.vars))]
  exact List.map_congr_left fun tc _ =>
    mkEntry_congr combo tc today hperm hnd hfp hurl hv hvn

theorem claim_C7_witness :
    expand_targets [("b", PVal.l ["1"]), ("a", PVal.l ["2", "3"])]
        [⟨some "{a}-{b}", some "u", [("z", PVal.l ["p"]), ("y", PVal.s "q")]⟩] "D" =
      expand_targets [("a", PVal.l ["2", "3"]), ("b", PVal.l ["1"])]
        [⟨some "{a}-{b}", some "u", [("y", PVal.s "q"), ("z", PVal.l ["p"])]⟩] "D" :=
  claim_C7 [("b", PVal.l ["1"]), ("a", PVal.l ["2", "3"])]
    [("a", PVal.l ["2", "3"]), ("b", PVal.l ["1"])]
    [⟨some "{a}-{b}", some "u", [("z", PVal.l ["p"]), ("y", PVal.s "q")]⟩]
    [⟨some "{a}-{b}", some "u", [("y", PVal.s "q"), ("z", PVal.l ["p"])]⟩]
    "D" (List.Perm.swap _ _ _) (by decide)
    (List.Forall₂.cons ⟨rfl, rfl, List.Perm.swap _ _ _, by decide⟩ List.Forall₂.nil)

end PH
